import Mathlib

/-!
Verification development for the libecli CLI infrastructure library.

The definitions below are a shallow embedding of `src/lib/ecli.c`:
C strings are modelled as `String` / `List Char`, bounded C buffers are
modelled with explicit `List.take` truncation at the buffer capacity,
and the external libecoli grammar engine is abstracted as oracle
functions passed in as parameters (`ec_complete` becomes
`comp : String â†’ List String`, command execution becomes
`run : String â†’ Int`).
-/

set_option maxRecDepth 4000

/-! ## Basic character and string helpers -/

/-- Characters treated as token separators by `strtok_r(work, " \t", ...)`. -/
def chrIsSpaceTab (c : Char) : Bool := c = ' ' || c = '\t'

/-- Leading-whitespace trim: `while (*line == ' ' || *line == '\t') line++`. -/
def trim_leading : List Char → List Char
  | [] => []
  | c :: rest => if c = ' ' || c = '\t' then trim_leading rest else c :: rest

/-- Trailing trim of `process_line`: drops `'\n'`, `'\r'`, `' '` from the end.
The C loop guard `end > line` never removes the first character, so the head
of the list is kept unconditionally. -/
def line_trailing_drop (l : List Char) : List Char :=
  match l with
  | [] => []
  | c :: rest =>
      c :: (rest.reverse.dropWhile (fun x => x = '\n' || x = '\r' || x = ' ')).reverse

/-- Whitespace trimming used by `process_line` (ecli.c lines 455-460). -/
def trim_line (l : List Char) : List Char := line_trailing_drop (trim_leading l)

/-- Trailing trim of `ecli_load_config`: also drops `'\t'`; the guard
`end > p` likewise keeps the first character. -/
def replay_trailing_drop (l : List Char) : List Char :=
  match l with
  | [] => []
  | c :: rest =>
      c :: (rest.reverse.dropWhile
              (fun x => x = '\n' || x = '\r' || x = ' ' || x = '\t')).reverse

/-- Whitespace trimming used by `ecli_load_config` (ecli.c lines 1419-1427). -/
def replay_trim (l : List Char) : List Char := replay_trailing_drop (trim_leading l)

/-- Space-join of a list of strings (single `' '` between elements). -/
def joinSpace : List String → String
  | [] => ""
  | t :: rest => rest.foldl (fun a b => a ++ " " ++ b) t

/-- The append pattern of `expand_prefixes`: a separating space is written
only when the accumulated result is nonempty (`if (result[0])`). -/
def joinTok (result tok : String) : String :=
  if result = "" then tok else result ++ " " ++ tok

/-- `strncat(dst, src, size - strlen(dst) - 1)` on a buffer of `size` bytes:
appends at most `size - 1 - dst.length` characters of `src`. -/
def strncat_cap_l (dst src : List Char) (size : Nat) : List Char :=
  dst ++ src.take (size - 1 - dst.length)

/-! ## Context stack manager (ecli.c lines 30-244) -/

/-- The session state relevant to the context stack: the `context_stack`
TAILQ (head of the list is the outermost frame), the `context_depth`
counter, and the `current_prompt[256]` buffer. -/
structure CliState where
  context_stack : List String
  context_depth : Nat
  current_prompt : String

/-- Glyph stripping of `ecli_update_prompt`: if the second-to-last character
is `'>'` or `'#'` the last two characters are dropped, otherwise if the last
character is `'>'` or `'#'` it alone is dropped. -/
def strip_glyph (b : List Char) : List Char :=
  let n := b.length
  if 2 ≤ n ∧ (b.getD (n - 2) ' ' = '>' ∨ b.getD (n - 2) ' ' = '#') then
    b.take (n - 2)
  else if 1 ≤ n ∧ (b.getD (n - 1) ' ' = '>' ∨ b.getD (n - 1) ' ' = '#') then
    b.take (n - 1)
  else b

/-- The `context_path[128]` buffer built by `ecli_update_prompt`: frame names
joined by `'-'`, each `strncat` bounded by the remaining buffer space. -/
def build_context_path (stack : List String) : List Char :=
  (stack.foldl
    (fun (acc : List Char × Bool) name =>
      let s1 := if acc.2 then acc.1 else strncat_cap_l acc.1 ['-'] 128
      (strncat_cap_l s1 name.data 128, false))
    ([], true)).1

/-- `ecli_update_prompt` (ecli.c lines 128-158): at depth 0 the base prompt is
copied verbatim (`snprintf` into a 256-byte buffer); at depth > 0 the base
prompt is copied into a 64-byte buffer, its trailing mode glyph is stripped,
and the prompt becomes `base(path)> ` with `%.*s` precision 59 on the base
and `%.128s` on the context path. -/
def ecli_update_prompt (base : String) (s : CliState) : CliState :=
  if s.context_depth = 0 then
    { s with current_prompt := ⟨base.data.take 255⟩ }
  else
    let path := build_context_path s.context_stack
    let b := strip_glyph (base.data.take 63)
    { s with current_prompt := ⟨b.take 59 ++ '(' :: (path.take 128 ++ ")> ".data)⟩ }

/-- The prompt as a pure function of the base prompt and the context stack
(the computation of `ecli_update_prompt`, keyed on stack emptiness). -/
def prompt_of (base : String) (stack : List String) : String :=
  if stack = [] then ⟨base.data.take 255⟩
  else ⟨(strip_glyph (base.data.take 63)).take 59 ++
        '(' :: ((build_context_path stack).take 128 ++ ")> ".data)⟩

/-- The `'-'`-joined frame names, with no buffer bound (the specification's
description of the context path). -/
def dashJoin (stack : List String) : List Char :=
  match stack with
  | [] => []
  | h :: t => h.data ++ t.flatMap (fun n => '-' :: n.data)

/-- `ecli_enter_context` (ecli.c lines 168-185): appends the frame at the tail
of the stack, increments the depth and recomputes the prompt. -/
def ecli_enter_context (base : String) (s : CliState) (name : String) : CliState :=
  ecli_update_prompt base
    { s with context_stack := s.context_stack ++ [name],
             context_depth := s.context_depth + 1 }

/-- `ecli_exit_context` (ecli.c lines 190-208): at depth 0 it reports
"Already at top level" (the returned flag) and changes nothing; otherwise it
removes the last stack entry (when one exists), decrements the depth and
recomputes the prompt. -/
def ecli_exit_context (base : String) (s : CliState) : CliState × Bool :=
  if s.context_depth = 0 then (s, true)
  else
    let s1 :=
      if s.context_stack = [] then s
      else { s with context_stack := s.context_stack.dropLast,
                    context_depth := s.context_depth - 1 }
    (ecli_update_prompt base s1, false)

/-- `ecli_exit_all_contexts` (ecli.c lines 213-223): clears the stack, sets
depth to 0 and recomputes the prompt. -/
def ecli_exit_all_contexts (base : String) (s : CliState) : CliState :=
  ecli_update_prompt base { s with context_stack := [], context_depth := 0 }

/-- `ecli_build_full_command` (ecli.c lines 228-244) on a buffer of `size`
bytes: at depth 0 it is `strncpy(full_cmd, line, size - 1)`; otherwise each
frame name and a space are appended with bounded `strncat`, then the line. -/
def ecli_build_full_command (s : CliState) (line : String) (size : Nat) : String :=
  if s.context_depth = 0 then ⟨line.data.take (size - 1)⟩
  else
    let full := s.context_stack.foldl
      (fun acc name => strncat_cap_l (strncat_cap_l acc name.data size) [' '] size) []
    ⟨strncat_cap_l full line.data size⟩

/-- One context-stack operation, as named in the C API. -/
inductive CtxOp where
  | enter (name : String)
  | exitOne
  | exitAll

/-- Applies one context operation to the session state. -/
def apply_op (base : String) (s : CliState) : CtxOp → CliState
  | .enter n => ecli_enter_context base s n
  | .exitOne => (ecli_exit_context base s).1
  | .exitAll => ecli_exit_all_contexts base s

/-- The session state right after `ecli_init`: empty stack, depth 0, prompt
initialized by `ecli_update_prompt`. -/
def init_state (base : String) : CliState :=
  ecli_update_prompt base ⟨[], 0, ""⟩

/-- Runs a sequence of context operations from the initial state. -/
def run_ops (base : String) (ops : List CtxOp) : CliState :=
  ops.foldl (apply_op base) (init_state base)

/-! ## process_line (ecli.c lines 453-549) -/

/-- The terminal disposition of one interactive input line, up to the point
where the grammar collaborator takes over (`resolve` carries the full
command handed to `ec_parse`). -/
inductive LineAction where
  | reprompt
  | navEnd
  | navExit
  | resolve (full_cmd : String)
deriving DecidableEq

/-- Result of `process_line`: the new session state, the disposition of the
line, and the text written to the session output (the re-issued prompt) by
the modelled branches. -/
structure LineResult where
  state : CliState
  action : LineAction
  out : List String

/-- `process_line` (ecli.c lines 453-549), modelled up to grammar resolution:
trim, empty-line re-prompt, the reserved words `end` (always) and `exit`
(only at depth > 0), and otherwise the construction of the full command (in
a 512-byte buffer) that is submitted to the grammar. -/
def process_line (base : String) (s : CliState) (raw : String) : LineResult :=
  let line : List Char := trim_line raw.data
  if line = [] then ⟨s, .reprompt, [s.current_prompt]⟩
  else if line = "end".data then
    let s2 := ecli_exit_all_contexts base s
    ⟨s2, .navEnd, [s2.current_prompt]⟩
  else if line = "exit".data ∧ 0 < s.context_depth then
    let s2 := (ecli_exit_context base s).1
    ⟨s2, .navExit, [s2.current_prompt]⟩
  else
    ⟨s, .resolve (ecli_build_full_command s ⟨line⟩ 512), []⟩

/-! ## Abbreviation expansion (ecli.c lines 250-352)

The grammar collaborator's `ec_complete` restricted to
`EC_COMP_FULL | EC_COMP_PARTIAL` items is abstracted as an oracle
`comp : String â†’ List String` returning the candidate strings for a
partial command (a NULL `ec_comp` is the empty list). -/

/-- `strtok_r(work, " \t", ...)` tokenization: whitespace-delimited tokens,
empty tokens never produced. -/
def tokenizeAux : List Char → List Char → List String
  | [], acc => if acc.isEmpty then [] else [⟨acc.reverse⟩]
  | c :: rest, acc =>
      if chrIsSpaceTab c then
        if acc.isEmpty then tokenizeAux rest [] else ⟨acc.reverse⟩ :: tokenizeAux rest []
      else tokenizeAux rest (c :: acc)

/-- The token list of a command string. -/
def tokenize (s : String) : List String := tokenizeAux s.data []

/-- `expand_single_token` (ecli.c lines 250-277): asks the oracle for the
full-or-partial completion candidates of the partial command and returns
the single candidate's string when exactly one exists, `none` otherwise. -/
def expand_single_token (comp : String → List String) (partialCmd : String) :
    Option String :=
  if (comp partialCmd).length = 1 then (comp partialCmd).head? else none

/-- The append onto the `result[4096]` buffer of `expand_prefixes`
(ecli.c lines 325-338): a separating space is written only when the
accumulated result is nonempty (`if (result[0])`), and each `strncat` is
bounded by `sizeof(result) - strlen(result) - 1`. -/
def expand_cat (result piece : String) : String :=
  if result = "" then ⟨strncat_cap_l result.data piece.data 4096⟩
  else ⟨strncat_cap_l (strncat_cap_l result.data " ".data 4096) piece.data 4096⟩

/-- The token loop of `expand_prefixes` (ecli.c lines 305-342): accumulates
the result in the 4096-byte buffer, queries `expand_single_token` on
(result so far + space + token) built in an exactly-sized `malloc` buffer,
adopts a unique candidate (recording an expansion when it differs from the
original token) and keeps the token otherwise; at the end the result is
returned only when some token changed. -/
def expand_loop (comp : String → List String) :
    List String → String → Bool → Option String
  | [], result, expandedAny => if expandedAny then some result else none
  | tok :: rest, result, expandedAny =>
      let partialCmd := joinTok result tok
      match expand_single_token comp partialCmd with
      | some e =>
          expand_loop comp rest (expand_cat result e) (expandedAny || decide (tok ≠ e))
      | none =>
          expand_loop comp rest (expand_cat result tok) expandedAny

/-- `expand_prefixes` (ecli.c lines 286-352): `none` models the NULL return
("no expansion needed/possible"). -/
def expand_prefixes (comp : String → List String) (cmd : String) : Option String :=
  if cmd = "" then none
  else expand_loop comp (tokenize cmd) "" false

/-- The claim's description of the per-token pass: for each token, in order,
the candidate string is the space-join of the accumulated result and the
token; a unique completion is adopted, otherwise the token is kept. -/
def claim_expand_toks (comp : String → List String) :
    List String → List String → List String
  | _, [] => []
  | outSoFar, t :: rest =>
      let cand := joinSpace (outSoFar ++ [t])
      let t2 := match comp cand with
        | [e] => e
        | _ => t
      t2 :: claim_expand_toks comp (outSoFar ++ [t2]) rest

/-- The claim's description of abbreviation expansion: the reconstructed
string is returned exactly when some token changed. -/
def claim_expand (comp : String → List String) (cmd : String) : Option String :=
  let toks := tokenize cmd
  let outToks := claim_expand_toks comp [] toks
  if outToks = toks then none else some (joinSpace outToks)

/-- A command is fully expanded when, along the expansion pass (with the
accumulated result built exactly as `expand_prefixes` builds its
`result[4096]` buffer), every unique completion candidate coincides with
the token already present. -/
def fully_expanded_aux (comp : String → List String) :
    List String → String → Bool
  | [], _ => true
  | t :: rest, result =>
      match expand_single_token comp (joinTok result t) with
      | some e => decide (e = t) && fully_expanded_aux comp rest (expand_cat result e)
      | none => fully_expanded_aux comp rest (expand_cat result t)

/-! ## Output/config registry (ecli.c lines 911-980) -/

/-- One `ecli_out_entry_t`: the emitter `func` is modelled as a function from
the effective format string to the lines it writes (a NULL function pointer
is `none`). -/
structure OutEntry where
  name : String
  group : Option String
  default_fmt : String
  func : Option (String → List String)
  priority : Int

/-- `ecli_out_register` (ecli.c lines 913-935): insertion sorted by priority,
the new entry placed after every entry whose priority is `<=` the new one. -/
def ecli_out_register (reg : List OutEntry) (e : OutEntry) : List OutEntry :=
  match reg with
  | [] => [e]
  | x :: xs => if x.priority ≤ e.priority then x :: ecli_out_register xs e
               else e :: x :: xs

/-- `ecli_out_get_fmt` (ecli.c lines 940-945): the YAML override for the
entry name when present, the compiled-in default otherwise. -/
def ecli_out_get_fmt (ov : String → Option String) (name default_fmt : String) :
    String :=
  (ov name).getD default_fmt

/-- The lines produced by one entry's emitter, passed the effective format. -/
def emit_lines (ov : String → Option String) (e : OutEntry) : List String :=
  match e.func with
  | some f => f (ecli_out_get_fmt ov e.name e.default_fmt)
  | none => []

/-- The group-separator lines written when the group changes: a group-close
marker for the previous group (when any) and a group-open marker. -/
def dump_markers (cur : Option String) (g : String) : List String :=
  (match cur with
   | some cg => ["! end " ++ cg]
   | none => []) ++ ["! " ++ g ++ " configuration"]

/-- The entry loop of `ecli_dump_running_config` (ecli.c lines 958-972):
`cur` is `current_group`; markers are written when the entry has a group
different from `cur`, then the entry's emitter runs. -/
def dump_loop (ov : String → Option String) :
    Option String → List OutEntry → List String
  | _, [] => []
  | cur, e :: rest =>
      match e.group with
      | none => emit_lines ov e ++ dump_loop ov cur rest
      | some g =>
          if cur = some g then emit_lines ov e ++ dump_loop ov cur rest
          else dump_markers cur g ++ emit_lines ov e ++ dump_loop ov (some g) rest

/-- The value of `current_group` after the loop. -/
def final_group (cur : Option String) (l : List OutEntry) : Option String :=
  l.foldl (fun c e => match e.group with | none => c | some g => some g) cur

/-- `ecli_dump_running_config` (ecli.c lines 950-980): header, the grouped
entries, the close marker of the last group, and the trailer. -/
def ecli_dump_running_config (ov : String → Option String) (reg : List OutEntry) :
    List String :=
  ["! running configuration", "!"]
  ++ dump_loop ov none reg
  ++ (match final_group none reg with
      | some g => ["! end " ++ g]
      | none => [])
  ++ ["!", "! end"]

/-- No YAML format overrides. -/
def ovNone : String → Option String := fun _ => none

/-- Binding (name=a, group=G1, prio=20) of the ordering scenario. -/
def entA : OutEntry := ⟨"a", some "G1", "", some (fun _ => ["outA"]), 20⟩

/-- Binding (name=b, group=G1, prio=10) of the ordering scenario. -/
def entB : OutEntry := ⟨"b", some "G1", "", some (fun _ => ["outB"]), 10⟩

/-- Binding (name=c, group=G2, prio=5) of the ordering scenario. -/
def entC : OutEntry := ⟨"c", some "G2", "", some (fun _ => ["outC"]), 5⟩

/-- The registry after registering a, then b, then c. -/
def regC2 : List OutEntry :=
  ecli_out_register (ecli_out_register (ecli_out_register [] entA) entB) entC

/-- Binding `set_name` (group "greeting", prio 10) whose emitter writes
`set name Alice`. -/
def entName : OutEntry :=
  ⟨"set_name", some "greeting", "set name {name}\n",
   some (fun _ => ["set name Alice"]), 10⟩

/-- Binding `set_address` (group "network", prio 20) whose emitter writes
`set address 10.0.0.1`. -/
def entAddr : OutEntry :=
  ⟨"set_address", some "network", "set address {addr}\n",
   some (fun _ => ["set address 10.0.0.1"]), 20⟩

/-- The registry after registering `set_name` then `set_address`. -/
def regC3 : List OutEntry := ecli_out_register (ecli_out_register [] entName) entAddr

/-! ## Named-parameter output formatting (ecli.c lines 985-1118) -/

/-- A typed value of `ecli_fmt_param_t` (the union tagged by
`ecli_fmt_type_t`); a `%s` argument may be NULL. -/
inductive FmtVal where
  | vstr (s : Option String)
  | vint (i : Int)
  | vuint (u : Nat)
  | vlong (l : Int)
  | vulong (u : Nat)
deriving DecidableEq

/-- One name/type/value triple of the `ecli_out_fmt` vararg list. -/
structure FmtParam where
  name : List Char
  val : FmtVal
deriving DecidableEq

/-- The textual form a matched placeholder substitutes (the `snprintf`
conversions `%s`, `%d`, `%u`, `%ld`, `%lu`; a NULL string prints
`(null)`). -/
def render_val : FmtVal → List Char
  | .vstr none => "(null)".data
  | .vstr (some s) => s.data
  | .vint i => (toString i).data
  | .vuint u => (toString u).data
  | .vlong l => (toString l).data
  | .vulong u => (toString u).data

/-- `strchr(p + 1, '}')`: splits at the first closing brace, returning the
characters before it and the rest after it. -/
def splitAtClose : List Char → Option (List Char × List Char)
  | [] => none
  | c :: rest =>
      if c = '}' then some ([], rest)
      else
        match splitAtClose rest with
        | some (a, b) => some (c :: a, b)
        | none => none

/-- The scan loop of `ecli_out_fmt` (ecli.c lines 1053-1113) over a
1024-byte output buffer; `pos` is `out - output` and the loop guard is
`out < out_end` with `out_end = output + 1023`.  A matched placeholder
appends the value truncated by `snprintf` to the remaining space while the
write position advances by `snprintf`'s untruncated return value; an
unmatched or over-long (name length >= 64) placeholder is copied literally
up to the remaining space.  `fuel` bounds the recursion and is in practice
at least the length of the remaining format string. -/
def fmt_loop (ps : List FmtParam) : Nat → List Char → Nat → List Char
  | 0, _, _ => []
  | _ + 1, [], _ => []
  | fuel + 1, c :: rest, pos =>
      if 1023 ≤ pos then []
      else if c = '{' then
        match splitAtClose rest with
        | none => c :: fmt_loop ps fuel rest (pos + 1)
        | some (nm, rest2) =>
            match (if nm.length < 64 then ps.find? (fun q => q.name == nm) else none) with
            | some q =>
                let f := render_val q.val
                f.take (1022 - pos) ++ fmt_loop ps fuel rest2 (pos + f.length)
            | none =>
                let lit := '{' :: (nm ++ ['}'])
                if pos + lit.length ≤ 1023 then
                  lit ++ fmt_loop ps fuel rest2 (pos + lit.length)
                else lit.take (1023 - pos)
      else c :: fmt_loop ps fuel rest (pos + 1)

/-- `ecli_out_fmt` (ecli.c lines 1005-1118): the vararg name/type/value list
is read up to the NULL sentinel but at most `ECLI_FMT_MAX_PARAMS = 16`
triples are stored; the format string is then scanned with `{name}`
placeholders substituted into the 1024-byte buffer. -/
def ecli_out_fmt (ps : List FmtParam) (fmt : String) : String :=
  ⟨fmt_loop (ps.take 16) fmt.data.length fmt.data 0⟩

/-! ## Configuration replay (ecli.c lines 1356-1448) -/

/-- What `ecli_load_config` does with one input line. -/
inductive ReplayAction where
  | skip
  | exec (cmd : String)
deriving DecidableEq

/-- The per-line dispatch of `ecli_load_config` (ecli.c lines 1416-1443):
trim, skip blanks, skip `'!'`/`'#'` comments, otherwise hand the trimmed
line to `execute_command`, which builds the full command (512-byte buffer)
and submits it to the grammar with no reserved-word handling. -/
def replay_line_action (s : CliState) (raw : String) : ReplayAction :=
  let p := replay_trim raw.data
  if p = [] then .skip
  else if p.head? = some '!' ∨ p.head? = some '#' then .skip
  else .exec (ecli_build_full_command s ⟨p⟩ 512)

/-- `execute_command` (ecli.c lines 1356-1391) with the parse-and-dispatch
pipeline abstracted as `run` on the full command; a negative result is a
failure (parse error, no match, no handler, or handler error). -/
def execute_command (run : String → Int) (s : CliState) (line : String) : Int :=
  run (ecli_build_full_command s line 512)

/-- The line loop of `ecli_load_config`: returns the error count and, for
each failing line, the logged (line number, trimmed text) pair. -/
def load_config_loop (run : String → Int) (s : CliState) :
    List String → Nat → Nat × List (Nat × String)
  | [], _ => (0, [])
  | raw :: rest, lineNum =>
      let p := replay_trim raw.data
      if p = [] then load_config_loop run s rest (lineNum + 1)
      else if p.head? = some '!' ∨ p.head? = some '#' then
        load_config_loop run s rest (lineNum + 1)
      else
        let r := execute_command run s ⟨p⟩
        let rec_result := load_config_loop run s rest (lineNum + 1)
        if r < 0 then (rec_result.1 + 1, (lineNum, (⟨p⟩ : String)) :: rec_result.2)
        else rec_result

/-- `ecli_load_config` (ecli.c lines 1396-1448) on an already-read file:
line numbers start at 1; the error count is returned. -/
def ecli_load_config (run : String → Int) (s : CliState) (lines : List String) :
    Nat × List (Nat × String) :=
  load_config_loop run s lines 1

/-- The claim's description of replay from line number `n` on: comments and
blanks are skipped and each remaining line is dispatched, failures collected
with their line numbers and trimmed text. -/
def replay_spec_from (run : String → Int) (s : CliState) (lines : List String)
    (n : Nat) : List (Nat × String) :=
  (lines.enumFrom n).filterMap fun pr =>
    let t := replay_trim pr.2.data
    if t = [] ∨ t.head? = some '!' ∨ t.head? = some '#' then none
    else if run (ecli_build_full_command s (⟨t⟩ : String) 512) < 0 then
      some (pr.1, (⟨t⟩ : String))
    else none

/-- The claim's description of replay of a whole file (line numbers start
at 1). -/
def replay_spec (run : String → Int) (s : CliState) (lines : List String) :
    List (Nat × String) :=
  replay_spec_from run s lines 1

/-! ## Concrete oracles used by the evaluation witnesses -/

/-- A small completion oracle: `sh` completes uniquely to `show`, and after
`show` the token `ver` completes uniquely to `version`. -/
def compW : String → List String :=
  fun s => if s = "sh" then ["show"]
           else if s = "show ver" then ["version"]
           else []

/-- A completion oracle for which `show version` is already fully expanded. -/
def compFull : String → List String :=
  fun s => if s = "show" then ["show"]
           else if s = "show version" then ["version"]
           else []

/-! ## Helper lemmas -/

theorem string_eq_of_data {s t : String} (h : s.data = t.data) : s = t := by
  cases s; cases t; cases h; rfl

theorem string_ne_empty_iff {s : String} : s ≠ "" ↔ s.data ≠ [] := by
  constructor
  · intro h hd
    exact h (string_eq_of_data hd)
  · intro h hd
    subst hd
    exact h rfl

theorem update_prompt_stack (base : String) (t : CliState) :
    (ecli_update_prompt base t).context_stack = t.context_stack := by
  unfold ecli_update_prompt
  split <;> rfl

theorem update_prompt_depth (base : String) (t : CliState) :
    (ecli_update_prompt base t).context_depth = t.context_depth := by
  unfold ecli_update_prompt
  split <;> rfl

theorem update_prompt_eq (base : String) (t : CliState)
    (h : t.context_depth = t.context_stack.length) :
    ecli_update_prompt base t =
      { t with current_prompt := prompt_of base t.context_stack } := by
  have hiff : t.context_depth = 0 ↔ t.context_stack = [] := by
    rw [h, List.length_eq_zero]
  unfold ecli_update_prompt prompt_of
  by_cases hd : t.context_depth = 0
  · rw [if_pos hd, if_pos (hiff.mp hd)]
  · rw [if_neg hd, if_neg (fun he => hd (hiff.mpr he))]

theorem process_line_end (base : String) (s : CliState) :
    process_line base s "end" =
      ⟨⟨[], 0, ⟨base.data.take 255⟩⟩, .navEnd, [(⟨base.data.take 255⟩ : String)]⟩ := by
  have ht : trim_line "end".data = "end".data := by decide
  simp only [process_line, ht]
  rw [if_neg (by decide), if_pos (by trivial)]
  simp [ecli_exit_all_contexts, ecli_update_prompt]

/-! ## Claim C5 -/

/-- Claim C5: processing the reserved input line `end` from any context depth
unconditionally clears the entire context stack, returning the depth to 0,
and resets the prompt to the base prompt (and re-prompts). -/
theorem end_resets_context (base : String) (s : CliState)
    (h : base.data.length ≤ 255) :
    (process_line base s "end").action = .navEnd ∧
    (process_line base s "end").state.context_stack = [] ∧
    (process_line base s "end").state.context_depth = 0 ∧
    (process_line base s "end").state.current_prompt = base ∧
    (process_line base s "end").out = [base] := by
  have hb : (⟨base.data.take 255⟩ : String) = base :=
    string_eq_of_data (List.take_of_length_le h)
  rw [process_line_end]
  exact ⟨rfl, rfl, rfl, hb, by rw [hb]⟩

/-- Witness for `end_resets_context` at a concrete depth-2 session. -/
theorem end_resets_context_witness :
    (process_line "cli> " ⟨["conf", "if0"], 2, "cli(conf-if0)> "⟩ "end").state.context_depth = 0 ∧
    (process_line "cli> " ⟨["conf", "if0"], 2, "cli(conf-if0)> "⟩ "end").state.current_prompt = "cli> " :=
  ⟨(end_resets_context "cli> " ⟨["conf", "if0"], 2, "cli(conf-if0)> "⟩ (by decide)).2.2.1,
   (end_resets_context "cli> " ⟨["conf", "if0"], 2, "cli(conf-if0)> "⟩ (by decide)).2.2.2.1⟩

/-! ## Claim C4 -/

/-- Claim C4: `exit` at depth 0 is not reserved and falls through to normal
grammar resolution with the session untouched, while `exit` at depth > 0
pops exactly the top frame, reduces the depth by exactly 1 and re-prompts. -/
theorem exit_navigation (base : String) (s : CliState)
    (hinv : s.context_depth = s.context_stack.length) :
    (s.context_depth = 0 →
      process_line base s "exit" =
        ⟨s, .resolve (ecli_build_full_command s "exit" 512), []⟩) ∧
    (0 < s.context_depth →
      (process_line base s "exit").action = .navExit ∧
      (process_line base s "exit").state.context_depth = s.context_depth - 1 ∧
      (process_line base s "exit").state.context_stack = s.context_stack.dropLast ∧
      (process_line base s "exit").out =
        [(process_line base s "exit").state.current_prompt]) := by
  have ht : trim_line "exit".data = "exit".data := by decide
  constructor
  · intro hd
    simp only [process_line, ht]
    rw [if_neg (by decide), if_neg (by decide),
        if_neg (fun hc => absurd hc.2 (by omega))]
  · intro hpos
    have hne : s.context_stack ≠ [] := by
      intro he
      rw [he] at hinv
      simp at hinv
      omega
    have hexit : (ecli_exit_context base s).1 =
        ecli_update_prompt base
          { s with context_stack := s.context_stack.dropLast,
                   context_depth := s.context_depth - 1 } := by
      simp only [ecli_exit_context]
      rw [if_neg (show ¬s.context_depth = 0 by omega), if_neg hne]
    simp only [process_line, ht]
    rw [if_neg (by decide), if_neg (by decide), if_pos (by simp [hpos])]
    exact ⟨rfl, by rw [hexit, update_prompt_depth], by rw [hexit, update_prompt_stack], rfl⟩

/-- Witness for `exit_navigation`: at depth 0 the line resolves through the
grammar; at depth 1 it pops the single frame. -/
theorem exit_navigation_witness :
    process_line "cli> " ⟨[], 0, "cli> "⟩ "exit" =
      ⟨⟨[], 0, "cli> "⟩, .resolve (ecli_build_full_command ⟨[], 0, "cli> "⟩ "exit" 512), []⟩ ∧
    (process_line "cli> " ⟨["conf"], 1, "cli(conf)> "⟩ "exit").state.context_depth = 0 ∧
    (process_line "cli> " ⟨["conf"], 1, "cli(conf)> "⟩ "exit").state.context_stack = [] :=
  ⟨(exit_navigation "cli> " ⟨[], 0, "cli> "⟩ (by decide)).1 (by decide),
   ((exit_navigation "cli> " ⟨["conf"], 1, "cli(conf)> "⟩ (by decide)).2 (by decide)).2.1,
   ((exit_navigation "cli> " ⟨["conf"], 1, "cli(conf)> "⟩ (by decide)).2 (by decide)).2.2.1⟩

/-! ## Claim C9 -/

theorem strncat_cap_fit (dst src : List Char) (size : Nat)
    (h : dst.length + src.length + 1 ≤ size) :
    strncat_cap_l dst src size = dst ++ src := by
  unfold strncat_cap_l
  rw [List.take_of_length_le (by omega)]

theorem strip_glyph_length (b : List Char) : (strip_glyph b).length ≤ b.length := by
  simp only [strip_glyph]
  split
  · exact le_trans (List.length_take_le _ _) (by omega)
  · split
    · exact le_trans (List.length_take_le _ _) (by omega)
    · exact le_rfl

theorem dash_fold (t : List String) (a : List Char)
    (h : a.length + (t.flatMap (fun n => '-' :: n.data)).length ≤ 127) :
    (t.foldl (fun (acc : List Char × Bool) name =>
        let s1 := if acc.2 then acc.1 else strncat_cap_l acc.1 ['-'] 128
        (strncat_cap_l s1 name.data 128, false)) (a, false)).1
      = a ++ t.flatMap (fun n => '-' :: n.data) := by
  induction t generalizing a with
  | nil => simp
  | cons n t' ih =>
      rw [List.flatMap_cons, List.length_append, List.length_cons] at h
      rw [List.foldl_cons]
      show (List.foldl _ (strncat_cap_l (strncat_cap_l a ['-'] 128) n.data 128, false) t').1 = _
      rw [strncat_cap_fit a ['-'] 128 (by rw [List.length_cons, List.length_nil]; omega)]
      rw [strncat_cap_fit (a ++ ['-']) n.data 128
            (by rw [List.length_append, List.length_cons, List.length_nil]; omega)]
      rw [show a ++ ['-'] ++ n.data = a ++ ('-' :: n.data) by simp]
      rw [ih (a ++ ('-' :: n.data)) (by rw [List.length_append, List.length_cons]; omega)]
      simp

theorem build_context_path_eq (stack : List String)
    (h : (dashJoin stack).length ≤ 127) :
    build_context_path stack = dashJoin stack := by
  cases stack with
  | nil => rfl
  | cons hd t =>
      unfold build_context_path dashJoin
      unfold dashJoin at h
      rw [List.length_append] at h
      rw [List.foldl_cons]
      show (List.foldl _ (strncat_cap_l [] hd.data 128, false) t).1 = _
      rw [strncat_cap_fit [] hd.data 128 (by rw [List.length_nil]; omega)]
      rw [List.nil_append]
      exact dash_fold t hd.data (by omega)

theorem apply_op_inv (base : String) (s : CliState) (op : CtxOp)
    (h1 : s.context_depth = s.context_stack.length)
    (h2 : s.current_prompt = prompt_of base s.context_stack) :
    (apply_op base s op).context_depth = (apply_op base s op).context_stack.length ∧
    (apply_op base s op).current_prompt =
      prompt_of base (apply_op base s op).context_stack := by
  cases op with
  | enter n =>
      simp only [apply_op, ecli_enter_context]
      rw [update_prompt_eq base _ (by simp [h1])]
      simp [h1]
  | exitOne =>
      simp only [apply_op, ecli_exit_context]
      by_cases hd : s.context_depth = 0
      · rw [if_pos hd]
        exact ⟨h1, h2⟩
      · have hne : s.context_stack ≠ [] := by
          intro he
          rw [he] at h1
          simp at h1
          omega
        rw [if_neg hd, if_neg hne]
        rw [update_prompt_eq base _ (by simp [List.length_dropLast]; omega)]
        simp [List.length_dropLast]
        omega
  | exitAll =>
      simp only [apply_op, ecli_exit_all_contexts]
      rw [update_prompt_eq base _ (by simp)]
      simp

theorem run_ops_inv (base : String) (ops : List CtxOp) :
    (run_ops base ops).context_depth = (run_ops base ops).context_stack.length ∧
    (run_ops base ops).current_prompt =
      prompt_of base (run_ops base ops).context_stack := by
  have hinit : (init_state base).context_depth = (init_state base).context_stack.length ∧
      (init_state base).current_prompt = prompt_of base (init_state base).context_stack := by
    unfold init_state
    rw [update_prompt_eq base _ (by simp)]
    simp
  unfold run_ops
  generalize hs : init_state base = s0 at hinit
  clear hs
  induction ops generalizing s0 with
  | nil => exact hinit
  | cons op l ih =>
      rw [List.foldl_cons]
      exact ih _ (apply_op_inv base s0 op hinit.1 hinit.2)

/-- Claim C9: after any sequence of enter/exit/exit-all context operations
the depth counter equals the stack size, and the current prompt is the
deterministic function of the base prompt and the stack: the base prompt
verbatim on an empty stack, and otherwise the glyph-stripped base prompt
followed by the dash-joined frame names in parentheses and `)> `. -/
theorem context_invariant (base : String) (ops : List CtxOp)
    (h59 : base.data.length ≤ 59)
    (hpath : (dashJoin (run_ops base ops).context_stack).length ≤ 127) :
    (run_ops base ops).context_depth = (run_ops base ops).context_stack.length ∧
    (run_ops base ops).current_prompt = prompt_of base (run_ops base ops).context_stack ∧
    ((run_ops base ops).context_stack = [] → (run_ops base ops).current_prompt = base) ∧
    ((run_ops base ops).context_stack ≠ [] →
      (run_ops base ops).current_prompt =
        ⟨strip_glyph base.data ++ '(' :: (dashJoin (run_ops base ops).context_stack ++ ")> ".data)⟩) := by
  obtain ⟨hA, hB⟩ := run_ops_inv base ops
  refine ⟨hA, hB, ?_, ?_⟩
  · intro he
    rw [hB, he]
    unfold prompt_of
    rw [if_pos rfl]
    exact string_eq_of_data (List.take_of_length_le (by omega))
  · intro hne
    rw [hB]
    unfold prompt_of
    rw [if_neg hne]
    rw [List.take_of_length_le (show base.data.length ≤ 63 by omega)]
    rw [List.take_of_length_le (le_trans (strip_glyph_length base.data) h59)]
    rw [build_context_path_eq _ hpath]
    rw [List.take_of_length_le (by omega)]

/-- Witness for `context_invariant`: enter two contexts then exit one. -/
theorem context_invariant_witness :
    (run_ops "cli> " [.enter "conf", .enter "if0", .exitOne]).context_depth =
      (run_ops "cli> " [.enter "conf", .enter "if0", .exitOne]).context_stack.length ∧
    (run_ops "cli> " [.enter "conf", .enter "if0", .exitOne]).current_prompt =
      prompt_of "cli> " (run_ops "cli> " [.enter "conf", .enter "if0", .exitOne]).context_stack :=
  ⟨(context_invariant "cli> " [.enter "conf", .enter "if0", .exitOne] (by decide) (by decide)).1,
   (context_invariant "cli> " [.enter "conf", .enter "if0", .exitOne] (by decide) (by decide)).2.1⟩

/-! ## Claim C6 -/

theorem data_append (s t : String) : (s ++ t).data = s.data ++ t.data := rfl

theorem space_data : (" " : String).data = [' '] := rfl

theorem joinSpace_foldl_prefix (l : List String) (p acc : String) :
    l.foldl (fun x y => x ++ " " ++ y) (p ++ acc)
      = p ++ l.foldl (fun x y => x ++ " " ++ y) acc := by
  induction l generalizing acc with
  | nil => rfl
  | cons b l' ih =>
      rw [List.foldl_cons, List.foldl_cons]
      rw [String.append_assoc p acc " ", String.append_assoc p (acc ++ " ") b]
      exact ih (acc ++ " " ++ b)

theorem joinSpace_cons_ne (a : String) (l : List String) (h : l ≠ []) :
    joinSpace (a :: l) = a ++ " " ++ joinSpace l := by
  cases l with
  | nil => exact absurd rfl h
  | cons b l' =>
      show (b :: l').foldl (fun x y => x ++ " " ++ y) a = _
      rw [List.foldl_cons]
      have : a ++ " " ++ b = (a ++ " ") ++ b := rfl
      rw [this, joinSpace_foldl_prefix l' (a ++ " ") b]
      rfl

theorem joinSpace_append_last (l : List String) (x : String) (h : l ≠ []) :
    joinSpace (l ++ [x]) = joinSpace l ++ " " ++ x := by
  induction l with
  | nil => exact absurd rfl h
  | cons a l' ih =>
      cases hl : l' with
      | nil =>
          subst hl
          show joinSpace [a, x] = _
          rw [joinSpace_cons_ne a [x] (by simp)]
          rfl
      | cons b t =>
          rw [← hl]
          show joinSpace (a :: (l' ++ [x])) = _
          rw [joinSpace_cons_ne a (l' ++ [x]) (by simp), ih (by rw [hl]; simp),
              joinSpace_cons_ne a l' (by rw [hl]; simp)]
          simp [String.append_assoc]

theorem joinSpace_last_data (stack : List String) (line : String) :
    (joinSpace (stack ++ [line])).data
      = stack.flatMap (fun n => n.data ++ [' ']) ++ line.data := by
  induction stack with
  | nil => simp [joinSpace]
  | cons h t ih =>
      show (joinSpace (h :: (t ++ [line]))).data = _
      rw [joinSpace_cons_ne h (t ++ [line]) (by simp)]
      rw [data_append, data_append, space_data, ih, List.flatMap_cons]
      simp

theorem cmd_fold (stack : List String) (acc : List Char)
    (h : acc.length + (stack.flatMap (fun n => n.data ++ [' '])).length ≤ 511) :
    stack.foldl (fun a name => strncat_cap_l (strncat_cap_l a name.data 512) [' '] 512) acc
      = acc ++ stack.flatMap (fun n => n.data ++ [' ']) := by
  induction stack generalizing acc with
  | nil => simp
  | cons n t ih =>
      rw [List.flatMap_cons, List.length_append, List.length_append,
          List.length_cons, List.length_nil] at h
      rw [List.foldl_cons]
      rw [strncat_cap_fit acc n.data 512 (by omega)]
      rw [strncat_cap_fit (acc ++ n.data) [' '] 512
            (by rw [List.length_append, List.length_cons, List.length_nil]; omega)]
      rw [ih (acc ++ n.data ++ [' '])
            (by rw [List.length_append, List.length_append, List.length_cons, List.length_nil]; omega)]
      simp

theorem build_full_pos (s : CliState) (line : String)
    (hd : s.context_depth ≠ 0)
    (hfit : (joinSpace (s.context_stack ++ [line])).data.length ≤ 511) :
    ecli_build_full_command s line 512 = joinSpace (s.context_stack ++ [line]) := by
  have hflat := joinSpace_last_data s.context_stack line
  rw [hflat, List.length_append] at hfit
  simp only [ecli_build_full_command]
  rw [if_neg hd]
  rw [cmd_fold s.context_stack [] (by rw [List.length_nil]; omega)]
  rw [List.nil_append]
  rw [strncat_cap_fit _ line.data 512 (by omega)]
  exact string_eq_of_data hflat.symm

/-- Claim C6: `ecli_build_full_command` returns the line unchanged on an
empty context stack and otherwise the space-joined frame names followed by
the line; consequently, with frames [A, B] on the stack, resolving input X
submits the same string to the grammar as resolving "A B X" at depth 0. -/
theorem build_full_command_spec (base : String) (s : CliState) (line : String)
    (A B X p2 p0 : String)
    (hinv : s.context_depth = s.context_stack.length)
    (hlfit : line.data.length ≤ 511)
    (hfit : (joinSpace (s.context_stack ++ [line])).data.length ≤ 511)
    (htrim : trim_line X.data = X.data)
    (hX0 : X ≠ "") (hXe : X ≠ "end") (hXx : X ≠ "exit")
    (htrim0 : trim_line (joinSpace [A, B, X]).data = (joinSpace [A, B, X]).data)
    (hJ0 : joinSpace [A, B, X] ≠ "")
    (hJe : joinSpace [A, B, X] ≠ "end")
    (hfit2 : (joinSpace [A, B, X]).data.length ≤ 511) :
    (s.context_stack = [] → ecli_build_full_command s line 512 = line) ∧
    (s.context_stack ≠ [] →
      ecli_build_full_command s line 512 = joinSpace (s.context_stack ++ [line])) ∧
    (process_line base ⟨[A, B], 2, p2⟩ X).action = .resolve (joinSpace [A, B, X]) ∧
    (process_line base ⟨[], 0, p0⟩ (joinSpace [A, B, X])).action =
      .resolve (joinSpace [A, B, X]) := by
  refine ⟨?_, ?_, ?_, ?_⟩
  · intro he
    have hd0 : s.context_depth = 0 := by rw [hinv, he]; rfl
    simp only [ecli_build_full_command]
    rw [if_pos hd0]
    exact string_eq_of_data (List.take_of_length_le hlfit)
  · intro hne
    have hd : s.context_depth ≠ 0 := by
      rw [hinv]
      intro hc
      exact hne (List.length_eq_zero.mp hc)
    exact build_full_pos s line hd hfit
  · simp only [process_line, htrim]
    rw [if_neg (string_ne_empty_iff.mp hX0),
        if_neg (fun hc => hXe (string_eq_of_data hc)),
        if_neg (fun hc => hXx (string_eq_of_data hc.1))]
    show LineAction.resolve (ecli_build_full_command ⟨[A, B], 2, p2⟩ X 512) = _
    rw [build_full_pos ⟨[A, B], 2, p2⟩ X (by simp) hfit2]
    rfl
  · simp only [process_line, htrim0]
    rw [if_neg (string_ne_empty_iff.mp hJ0),
        if_neg (fun hc => hJe (string_eq_of_data hc)),
        if_neg (fun hc => absurd hc.2 (by omega))]
    show LineAction.resolve
        (ecli_build_full_command ⟨[], 0, p0⟩ (joinSpace [A, B, X]) 512) = _
    have hb : ecli_build_full_command ⟨[], 0, p0⟩ (joinSpace [A, B, X]) 512
        = joinSpace [A, B, X] := by
      simp only [ecli_build_full_command]
      rw [if_pos (by trivial)]
      exact string_eq_of_data (List.take_of_length_le hfit2)
    rw [hb]

/-- Witness for `build_full_command_spec` at a concrete session. -/
theorem build_full_command_spec_witness :
    ecli_build_full_command ⟨["conf"], 1, "p"⟩ "mtu 1500" 512 =
      joinSpace (["conf"] ++ ["mtu 1500"]) ∧
    (process_line "cli> " ⟨["conf", "if0"], 2, ""⟩ "mtu 1500").action =
      .resolve (joinSpace ["conf", "if0", "mtu 1500"]) :=
  ⟨(build_full_command_spec "cli> " ⟨["conf"], 1, "p"⟩ "mtu 1500" "conf" "if0" "mtu 1500" "" ""
      (by decide) (by decide) (by decide) (by decide) (by decide) (by decide) (by decide)
      (by decide) (by decide) (by decide) (by decide)).2.1 (by decide),
   (build_full_command_spec "cli> " ⟨["conf"], 1, "p"⟩ "mtu 1500" "conf" "if0" "mtu 1500" "" ""
      (by decide) (by decide) (by decide) (by decide) (by decide) (by decide) (by decide)
      (by decide) (by decide) (by decide) (by decide)).2.2.1⟩

/-! ## Claims C1 and C7 -/

theorem tokenize_aux_ne_empty (l : List Char) :
    ∀ (acc : List Char) (t : String), t ∈ tokenizeAux l acc → t ≠ "" := by
  induction l with
  | nil =>
      intro acc t ht
      unfold tokenizeAux at ht
      split at ht
      · cases ht
      · rw [List.mem_singleton] at ht
        subst ht
        rw [string_ne_empty_iff]
        show acc.reverse ≠ []
        simp only [ne_eq, List.reverse_eq_nil_iff]
        intro hc
        simp [hc] at *
  | cons c rest ih =>
      intro acc t ht
      unfold tokenizeAux at ht
      split at ht
      · split at ht
        · exact ih [] t ht
        · rcases List.mem_cons.mp ht with h | h
          · subst h
            rw [string_ne_empty_iff]
            show acc.reverse ≠ []
            simp only [ne_eq, List.reverse_eq_nil_iff]
            intro hc
            simp [hc] at *
          · exact ih [] t h
      · exact ih (c :: acc) t ht

theorem tokenize_ne_empty (cmd : String) : ∀ t ∈ tokenize cmd, t ≠ "" :=
  fun t ht => tokenize_aux_ne_empty cmd.data [] t ht

theorem joinSpace_ne_empty (out : List String) (h : ∀ x ∈ out, x ≠ "")
    (hne : out ≠ []) : joinSpace out ≠ "" := by
  cases out with
  | nil => exact absurd rfl hne
  | cons h0 tl =>
      cases tl with
      | nil => exact h h0 (by simp)
      | cons b t =>
          rw [joinSpace_cons_ne h0 (b :: t) (by simp)]
          rw [string_ne_empty_iff, data_append]
          simp

theorem joinTok_joinSpace (out : List String) (t : String)
    (h : ∀ x ∈ out, x ≠ "") :
    joinTok (joinSpace out) t = joinSpace (out ++ [t]) := by
  cases hout : out with
  | nil => rfl
  | cons h0 tl =>
      rw [← hout]
      unfold joinTok
      rw [if_neg (joinSpace_ne_empty out h (by rw [hout]; simp))]
      rw [joinSpace_append_last out t (by rw [hout]; simp)]

theorem expand_cat_fit (result piece : String)
    (h : (joinTok result piece).data.length ≤ 4095) :
    expand_cat result piece = joinTok result piece := by
  unfold expand_cat
  unfold joinTok at h ⊢
  by_cases hr : result = ""
  · have hrd : result.data = ([] : List Char) := by rw [hr]
    rw [if_pos hr] at h
    rw [if_pos hr, if_pos hr]
    apply string_eq_of_data
    show strncat_cap_l result.data piece.data 4096 = piece.data
    unfold strncat_cap_l
    rw [hrd, List.nil_append]
    exact List.take_of_length_le (by simp only [List.length_nil]; omega)
  · rw [if_neg hr] at h
    rw [if_neg hr, if_neg hr]
    have hlen : result.data.length + 1 + piece.data.length ≤ 4095 := by
      rw [data_append, data_append, space_data] at h
      simp only [List.length_append, List.length_cons, List.length_nil] at h
      omega
    rw [strncat_cap_fit result.data " ".data 4096
          (by simp only [space_data, List.length_cons, List.length_nil]; omega)]
    rw [strncat_cap_fit (result.data ++ " ".data) piece.data 4096
          (by simp only [space_data, List.length_append, List.length_cons,
                List.length_nil]; omega)]
    apply string_eq_of_data
    show result.data ++ " ".data ++ piece.data = (result ++ " " ++ piece).data
    rw [data_append, data_append]

theorem joinSpace_snoc_le (l : List String) (x : String) :
    (joinSpace l).data.length ≤ (joinSpace (l ++ [x])).data.length := by
  cases hl : l with
  | nil => simp [joinSpace]
  | cons h t =>
      rw [← hl, joinSpace_append_last l x (by rw [hl]; simp)]
      rw [data_append, data_append, space_data]
      rw [List.length_append, List.length_append]
      omega

theorem joinSpace_prefix_le (l m : List String) :
    (joinSpace l).data.length ≤ (joinSpace (l ++ m)).data.length := by
  induction m generalizing l with
  | nil => simp
  | cons x m2 ih =>
      have h1 := joinSpace_snoc_le l x
      have h2 := ih (l ++ [x])
      simp only [List.append_assoc, List.singleton_append] at h2
      omega

theorem expand_loop_spec (comp : String → List String)
    (hne : ∀ s e, e ∈ comp s → e ≠ "") :
    ∀ (toks out : List String) (flag : Bool),
      (∀ t ∈ toks, t ≠ "") → (∀ t ∈ out, t ≠ "") →
      (joinSpace (out ++ claim_expand_toks comp out toks)).data.length ≤ 4095 →
      expand_loop comp toks (joinSpace out) flag =
        if flag || decide (claim_expand_toks comp out toks ≠ toks)
        then some (joinSpace (out ++ claim_expand_toks comp out toks))
        else none := by
  intro toks
  induction toks with
  | nil =>
      intro out flag _ _ _
      simp [expand_loop, claim_expand_toks]
  | cons t rest ih =>
      intro out flag htoks hout hfit
      have ht0 : t ≠ "" := htoks t (by simp)
      have hrest : ∀ x ∈ rest, x ≠ "" := fun x hx => htoks x (by simp [hx])
      have hcand := joinTok_joinSpace out t hout
      simp only [expand_loop, hcand]
      cases hc : comp (joinSpace (out ++ [t])) with
      | nil =>
          have hs : expand_single_token comp (joinSpace (out ++ [t])) = none := by
            simp [expand_single_token, hc]
          rw [hs]
          simp only [claim_expand_toks, hc] at hfit ⊢
          have hout2 : ∀ x ∈ out ++ [t], x ≠ "" := by
            intro x hx
            rcases List.mem_append.mp hx with h | h
            · exact hout x h
            · rw [List.mem_singleton] at h; subst h; exact ht0
          have hpre : (joinSpace (out ++ [t])).data.length ≤ 4095 := by
            have hm := joinSpace_prefix_le (out ++ [t])
              (claim_expand_toks comp (out ++ [t]) rest)
            simp only [List.append_assoc, List.singleton_append] at hm
            omega
          have hcat : expand_cat (joinSpace out) t = joinSpace (out ++ [t]) := by
            rw [expand_cat_fit (joinSpace out) t (by rw [hcand]; exact hpre), hcand]
          have hfit2 : (joinSpace ((out ++ [t]) ++
              claim_expand_toks comp (out ++ [t]) rest)).data.length ≤ 4095 := by
            simp only [List.append_assoc, List.singleton_append]
            exact hfit
          rw [hcat, ih (out ++ [t]) flag hrest hout2 hfit2]
          by_cases he : claim_expand_toks comp (out ++ [t]) rest = rest <;>
            simp [he]
      | cons e es =>
          cases es with
          | nil =>
              have hs : expand_single_token comp (joinSpace (out ++ [t])) = some e := by
                simp [expand_single_token, hc]
              have he0 : e ≠ "" := hne _ e (by rw [hc]; simp)
              rw [hs]
              simp only [claim_expand_toks, hc] at hfit ⊢
              have hout2 : ∀ x ∈ out ++ [e], x ≠ "" := by
                intro x hx
                rcases List.mem_append.mp hx with h | h
                · exact hout x h
                · rw [List.mem_singleton] at h; subst h; exact he0
              have hpre : (joinSpace (out ++ [e])).data.length ≤ 4095 := by
                have hm := joinSpace_prefix_le (out ++ [e])
                  (claim_expand_toks comp (out ++ [e]) rest)
                simp only [List.append_assoc, List.singleton_append] at hm
                omega
              have hcat : expand_cat (joinSpace out) e = joinSpace (out ++ [e]) := by
                rw [expand_cat_fit (joinSpace out) e
                      (by rw [joinTok_joinSpace out e hout]; exact hpre),
                    joinTok_joinSpace out e hout]
              have hfit2 : (joinSpace ((out ++ [e]) ++
                  claim_expand_toks comp (out ++ [e]) rest)).data.length ≤ 4095 := by
                simp only [List.append_assoc, List.singleton_append]
                exact hfit
              rw [hcat, ih (out ++ [e]) _ hrest hout2 hfit2]
              by_cases h1 : t = e
              · subst h1
                by_cases h2 : claim_expand_toks comp (out ++ [t]) rest = rest <;>
                  simp [h2]
              · have h1' : ¬e = t := fun hcc => h1 hcc.symm
                by_cases h2 : claim_expand_toks comp (out ++ [e]) rest = rest <;>
                  simp [h1, h1', h2]
          | cons e2 es' =>
              have hs : expand_single_token comp (joinSpace (out ++ [t])) = none := by
                simp [expand_single_token, hc]
              rw [hs]
              simp only [claim_expand_toks, hc] at hfit ⊢
              have hout2 : ∀ x ∈ out ++ [t], x ≠ "" := by
                intro x hx
                rcases List.mem_append.mp hx with h | h
                · exact hout x h
                · rw [List.mem_singleton] at h; subst h; exact ht0
              have hpre : (joinSpace (out ++ [t])).data.length ≤ 4095 := by
                have hm := joinSpace_prefix_le (out ++ [t])
                  (claim_expand_toks comp (out ++ [t]) rest)
                simp only [List.append_assoc, List.singleton_append] at hm
                omega
              have hcat : expand_cat (joinSpace out) t = joinSpace (out ++ [t]) := by
                rw [expand_cat_fit (joinSpace out) t (by rw [hcand]; exact hpre), hcand]
              have hfit2 : (joinSpace ((out ++ [t]) ++
                  claim_expand_toks comp (out ++ [t]) rest)).data.length ≤ 4095 := by
                simp only [List.append_assoc, List.singleton_append]
                exact hfit
              rw [hcat, ih (out ++ [t]) flag hrest hout2 hfit2]
              by_cases he : claim_expand_toks comp (out ++ [t]) rest = rest <;>
                simp [he]

/-- Claim C1: abbreviation expansion processes the command token by token,
strictly left to right: the candidate string is the space-join of the
accumulated result and the token, a unique full-or-partial completion is
adopted (counted as an expansion only when it differs from the token),
zero or several candidates keep the token; the reconstructed string is
returned iff at least one token changed, and otherwise no expansion is
reported.  The hypothesis `hfit` is the buffer-fit side condition: the
reconstructed string must fit the 4095 content bytes of the C
`result[4096]` buffer, otherwise the real code truncates. -/
theorem expand_matches_spec (comp : String → List String) (cmd : String)
    (hne : ∀ s e, e ∈ comp s → e ≠ "")
    (hfit : (joinSpace (claim_expand_toks comp [] (tokenize cmd))).data.length ≤ 4095) :
    expand_prefixes comp cmd = claim_expand comp cmd := by
  by_cases hc : cmd = ""
  · subst hc
    rfl
  · unfold expand_prefixes claim_expand
    rw [if_neg hc]
    have h1 : ∀ t ∈ tokenize cmd, t ≠ "" := tokenize_ne_empty cmd
    have h2 := expand_loop_spec comp hne (tokenize cmd) [] false h1
      (by intro x hx; cases hx) (by simpa using hfit)
    rw [show ("" : String) = joinSpace [] from rfl, h2]
    by_cases he : claim_expand_toks comp [] (tokenize cmd) = tokenize cmd <;>
      simp [he]

/-- Witness for `expand_matches_spec` on a concrete oracle and command. -/
theorem expand_matches_spec_witness :
    expand_prefixes compW "sh ver" = claim_expand compW "sh ver" ∧
    expand_prefixes compW "sh ver" = some "show version" :=
  ⟨expand_matches_spec compW "sh ver"
      (by
        intro s e h
        unfold compW at h
        split at h
        · rw [List.mem_singleton] at h; subst h; decide
        · split at h
          · rw [List.mem_singleton] at h; subst h; decide
          · cases h)
      (by decide),
   by decide⟩

theorem expand_idem_loop (comp : String → List String) :
    ∀ (toks : List String) (result : String),
      fully_expanded_aux comp toks result = true →
      expand_loop comp toks result false = none := by
  intro toks
  induction toks with
  | nil => intro result _; rfl
  | cons t rest ih =>
      intro result h
      unfold fully_expanded_aux at h
      simp only [expand_loop]
      cases hs : expand_single_token comp (joinTok result t) with
      | none =>
          rw [hs] at h
          exact ih (expand_cat result t) h
      | some e =>
          rw [hs] at h
          have h' : (decide (e = t) &&
              fully_expanded_aux comp rest (expand_cat result e)) = true := h
          rw [Bool.and_eq_true, decide_eq_true_iff] at h'
          obtain ⟨het, hrest⟩ := h'
          show expand_loop comp rest (expand_cat result e) (false || decide (t ≠ e)) = none
          have hb : (false || decide (t ≠ e)) = false := by rw [het]; simp
          rw [hb]
          exact ih (expand_cat result e) hrest

/-- Claim C7: abbreviation expansion is idempotent: on a command whose
every token is already its full form (along the result buffer the code
actually accumulates) it reports that no expansion occurred rather than
producing a changed string. -/
theorem expand_idempotent (comp : String → List String) (cmd : String)
    (h : fully_expanded_aux comp (tokenize cmd) "" = true) :
    expand_prefixes comp cmd = none := by
  by_cases hc : cmd = ""
  · subst hc; rfl
  · unfold expand_prefixes
    rw [if_neg hc]
    exact expand_idem_loop comp (tokenize cmd) "" h

/-- Witness for `expand_idempotent` on a fully expanded command. -/
theorem expand_idempotent_witness :
    fully_expanded_aux compFull (tokenize "show version") "" = true ∧
    expand_prefixes compFull "show version" = none :=
  ⟨by decide, expand_idempotent compFull "show version" (by decide)⟩

/-! ## Claims C2 and C3 -/

theorem out_register_eq (reg : List OutEntry) (e : OutEntry) :
    ecli_out_register reg e =
      reg.takeWhile (fun x => decide (x.priority ≤ e.priority)) ++
        e :: reg.dropWhile (fun x => decide (x.priority ≤ e.priority)) := by
  induction reg with
  | nil => rfl
  | cons x xs ih =>
      by_cases hx : x.priority ≤ e.priority
      · simp [ecli_out_register, hx, List.takeWhile_cons, List.dropWhile_cons, ih]
      · simp [ecli_out_register, hx, List.takeWhile_cons, List.dropWhile_cons]

theorem out_register_mem {reg : List OutEntry} {e a : OutEntry}
    (h : a ∈ ecli_out_register reg e) : a = e ∨ a ∈ reg := by
  induction reg with
  | nil =>
      left
      have h' : a ∈ [e] := h
      simpa using h'
  | cons x xs ih =>
      unfold ecli_out_register at h
      split at h
      · rcases List.mem_cons.mp h with h1 | h2
        · right
          exact h1 ▸ List.mem_cons_self x xs
        · rcases ih h2 with he | hm
          · left; exact he
          · right; exact List.mem_cons_of_mem x hm
      · rcases List.mem_cons.mp h with h1 | h2
        · left; exact h1
        · right; exact h2

theorem out_register_sorted {reg : List OutEntry} (e : OutEntry)
    (h : reg.Pairwise (fun x y => x.priority ≤ y.priority)) :
    (ecli_out_register reg e).Pairwise (fun x y => x.priority ≤ y.priority) := by
  induction reg with
  | nil => simp [ecli_out_register]
  | cons x xs ih =>
      rw [List.pairwise_cons] at h
      obtain ⟨hx, hxs⟩ := h
      simp only [ecli_out_register]
      by_cases hle : x.priority ≤ e.priority
      · rw [if_pos hle, List.pairwise_cons]
        refine ⟨?_, ih hxs⟩
        intro a ha
        rcases out_register_mem ha with he | hm
        · subst he; exact hle
        · exact hx a hm
      · rw [if_neg hle, List.pairwise_cons]
        refine ⟨?_, List.pairwise_cons.mpr ⟨hx, hxs⟩⟩
        intro a ha
        rcases List.mem_cons.mp ha with h1 | h2
        · subst h1; omega
        · have := hx a h2; omega

/-- Claim C2 counterexample: with bindings registered as (a, G1, 20),
(b, G1, 10), (c, G2, 5), the dump emits c (priority 5, group G2) first,
not the claimed order b, a then c. -/
theorem dump_order_counterexample :
    ecli_dump_running_config ovNone regC2 =
      ["! running configuration", "!", "! G2 configuration", "outC", "! end G2",
       "! G1 configuration", "outB", "outA", "! end G1", "!", "! end"] ∧
    ecli_dump_running_config ovNone regC2 ≠
      ["! running configuration", "!", "! G1 configuration", "outB", "outA",
       "! end G1", "! G2 configuration", "outC", "! end G2", "!", "! end"] ∧
    regC2.map OutEntry.name = ["c", "b", "a"] := by
  refine ⟨by rfl, by decide, by rfl⟩

/-- Claim C2 (amended): the registry is kept ordered by ascending priority
with ties resolved by registration order (the new entry is inserted after
every entry of priority `<=` its own); consequently the scenario registry is
[c, b, a] and the dump emits c under G2 first, then b and a under G1, each
group bracketed by open/close markers. -/
theorem registry_sorted_dump_order (reg : List OutEntry) (e : OutEntry)
    (h : reg.Pairwise (fun x y => x.priority ≤ y.priority)) :
    ecli_out_register reg e =
      reg.takeWhile (fun x => decide (x.priority ≤ e.priority)) ++
        e :: reg.dropWhile (fun x => decide (x.priority ≤ e.priority)) ∧
    (ecli_out_register reg e).Pairwise (fun x y => x.priority ≤ y.priority) ∧
    regC2.map OutEntry.name = ["c", "b", "a"] ∧
    ecli_dump_running_config ovNone regC2 =
      ["! running configuration", "!", "! G2 configuration", "outC", "! end G2",
       "! G1 configuration", "outB", "outA", "! end G1", "!", "! end"] :=
  ⟨out_register_eq reg e, out_register_sorted e h, by rfl, by rfl⟩

/-- Witness for `registry_sorted_dump_order`: registering into the singleton
sorted registry [b] keeps it sorted. -/
theorem registry_sorted_dump_order_witness :
    ecli_out_register [entB] entA =
      [entB].takeWhile (fun x => decide (x.priority ≤ entA.priority)) ++
        entA :: [entB].dropWhile (fun x => decide (x.priority ≤ entA.priority)) ∧
    (ecli_out_register [entB] entA).Pairwise (fun x y => x.priority ≤ y.priority) :=
  ⟨(registry_sorted_dump_order [entB] entA (by simp)).1,
   (registry_sorted_dump_order [entB] entA (by simp)).2.1⟩

/-- Claim C3 counterexample: the dump also emits the running-configuration
header and trailer lines, so its output is not exactly the seven claimed
lines. -/
theorem dump_scenario_counterexample :
    ecli_dump_running_config ovNone regC3 ≠
      ["! greeting configuration", "set name Alice", "! end greeting",
       "! network configuration", "set address 10.0.0.1", "! end network",
       "! end"] := by
  decide

/-- Claim C3 (amended): with the two bindings `set_name` (greeting, 10) and
`set_address` (network, 20), the dump output is exactly the ten lines
header (2 lines), greeting block (3 lines), network block (3 lines) and
trailer (2 lines); whenever the group of the current binding differs from
the previous one, the dump emits a close marker for the previous group (if
any) and an open marker for the new group before running the emitter. -/
theorem dump_scenario_exact (ov : String → Option String) (cur : Option String)
    (g : String) (e : OutEntry) (rest : List OutEntry)
    (hg : e.group = some g) (hne : cur ≠ some g) :
    dump_loop ov cur (e :: rest) =
      dump_markers cur g ++ emit_lines ov e ++ dump_loop ov (some g) rest ∧
    ecli_dump_running_config ovNone regC3 =
      ["! running configuration", "!", "! greeting configuration",
       "set name Alice", "! end greeting", "! network configuration",
       "set address 10.0.0.1", "! end network", "!", "! end"] := by
  constructor
  · simp only [dump_loop, hg]
    rw [if_neg hne]
  · rfl

/-- Witness for `dump_scenario_exact`: opening the greeting group at the
start of the scenario registry. -/
theorem dump_scenario_exact_witness :
    dump_loop ovNone none [entName, entAddr] =
      dump_markers none "greeting" ++ emit_lines ovNone entName ++
        dump_loop ovNone (some "greeting") [entAddr] :=
  (dump_scenario_exact ovNone none "greeting" entName [entAddr] (by rfl) (by decide)).1

/-! ## Claim C8 -/

theorem load_config_loop_eq (run : String → Int) (s : CliState) :
    ∀ (lines : List String) (n : Nat),
      load_config_loop run s lines n =
        ((replay_spec_from run s lines n).length, replay_spec_from run s lines n) := by
  intro lines
  induction lines with
  | nil => intro n; rfl
  | cons raw rest ih =>
      intro n
      simp only [load_config_loop]
      by_cases h1 : replay_trim raw.data = []
      · rw [if_pos h1, ih]
        unfold replay_spec_from
        rw [List.enumFrom_cons, List.filterMap_cons]
        simp [h1]
      · by_cases h2 : (replay_trim raw.data).head? = some '!' ∨
            (replay_trim raw.data).head? = some '#'
        · rw [if_neg h1, if_pos h2, ih]
          unfold replay_spec_from
          rw [List.enumFrom_cons, List.filterMap_cons]
          rcases h2 with h2 | h2 <;> simp [h1, h2]
        · rw [if_neg h1, if_neg h2]
          rw [not_or] at h2
          obtain ⟨hA, hB⟩ := h2
          rw [ih]
          unfold replay_spec_from
          rw [List.enumFrom_cons, List.filterMap_cons]
          by_cases h3 : run (ecli_build_full_command s (⟨replay_trim raw.data⟩ : String) 512) < 0
          · rw [if_pos (show execute_command run s (⟨replay_trim raw.data⟩ : String) < 0 from h3)]
            simp [h1, hA, hB, h3]
          · rw [if_neg (show ¬execute_command run s (⟨replay_trim raw.data⟩ : String) < 0 from h3)]
            simp [h1, hA, hB, h3]

/-- Claim C8: replay skips blank lines and lines starting with the comment
characters `!` or `#`; every remaining line is dispatched through the same
full-command construction as interactive input, but with no `end`/`exit`
special-casing (both are executed as ordinary commands, while interactive
processing reserves `end`); per-line failures are aggregated into the
returned count and logged with the 1-based line number and trimmed text. -/
theorem load_config_replay (run : String → Int) (base : String) (s : CliState)
    (raw raw2 : String) (lines : List String)
    (hne : replay_trim raw2.data ≠ [])
    (hb1 : (replay_trim raw2.data).head? ≠ some '!')
    (hb2 : (replay_trim raw2.data).head? ≠ some '#') :
    (replay_line_action s raw = .skip ↔
      (replay_trim raw.data = [] ∨ (replay_trim raw.data).head? = some '!' ∨
        (replay_trim raw.data).head? = some '#')) ∧
    replay_line_action s raw2 =
      .exec (ecli_build_full_command s ⟨replay_trim raw2.data⟩ 512) ∧
    replay_line_action s "end" = .exec (ecli_build_full_command s "end" 512) ∧
    (process_line base s "end").action = .navEnd ∧
    replay_line_action s "exit" = .exec (ecli_build_full_command s "exit" 512) ∧
    ecli_load_config run s lines =
      ((replay_spec run s lines).length, replay_spec run s lines) := by
  refine ⟨?_, ?_, ?_, ?_, ?_, ?_⟩
  · simp only [replay_line_action]
    by_cases h1 : replay_trim raw.data = []
    · simp [h1]
    · by_cases h2 : (replay_trim raw.data).head? = some '!' ∨
          (replay_trim raw.data).head? = some '#'
      · rw [if_neg h1, if_pos h2]
        simp [h1, h2]
      · rw [if_neg h1, if_neg h2]
        simp [h1, h2]
  · simp only [replay_line_action]
    rw [if_neg hne, if_neg (not_or.mpr ⟨hb1, hb2⟩)]
  · simp only [replay_line_action]
    rw [show replay_trim "end".data = "end".data from by decide]
    rw [if_neg (by decide), if_neg (by decide)]
  · rw [process_line_end]
  · simp only [replay_line_action]
    rw [show replay_trim "exit".data = "exit".data from by decide]
    rw [if_neg (by decide), if_neg (by decide)]
  · exact load_config_loop_eq run s lines 1

/-- Witness for `load_config_replay` on a concrete four-line file with one
failing command. -/
theorem load_config_replay_witness :
    replay_line_action ⟨[], 0, "p"⟩ " set name Alice " =
      .exec (ecli_build_full_command ⟨[], 0, "p"⟩
              ⟨replay_trim " set name Alice ".data⟩ 512) ∧
    ecli_load_config (fun c => if c = "bad cmd" then -1 else 0) ⟨[], 0, "p"⟩
        ["set name Alice", "", "! note", "bad cmd"] =
      ((replay_spec (fun c => if c = "bad cmd" then -1 else 0) ⟨[], 0, "p"⟩
          ["set name Alice", "", "! note", "bad cmd"]).length,
       replay_spec (fun c => if c = "bad cmd" then -1 else 0) ⟨[], 0, "p"⟩
          ["set name Alice", "", "! note", "bad cmd"]) :=
  ⟨(load_config_replay (fun c => if c = "bad cmd" then -1 else 0) "cli> " ⟨[], 0, "p"⟩
      "x" " set name Alice " ["set name Alice", "", "! note", "bad cmd"]
      (by decide) (by decide) (by decide)).2.1,
   (load_config_replay (fun c => if c = "bad cmd" then -1 else 0) "cli> " ⟨[], 0, "p"⟩
      "x" " set name Alice " ["set name Alice", "", "! note", "bad cmd"]
      (by decide) (by decide) (by decide)).2.2.2.2.2⟩

/-! ## Claim C10 -/

theorem splitAtClose_eq :
    ∀ (l a b : List Char), splitAtClose l = some (a, b) → l = a ++ '}' :: b := by
  intro l
  induction l with
  | nil =>
      intro a b h
      simp [splitAtClose] at h
  | cons c rest ih =>
      intro a b h
      by_cases hc : c = '}'
      · subst hc
        unfold splitAtClose at h
        rw [if_pos rfl] at h
        injection h with h2
        injection h2 with hA hB
        subst hA
        subst hB
        simp
      · unfold splitAtClose at h
        rw [if_neg hc] at h
        cases hsp : splitAtClose rest with
        | none =>
            rw [hsp] at h
            cases h
        | some p =>
            obtain ⟨a2, b2⟩ := p
            rw [hsp] at h
            injection h with h2
            injection h2 with hA hB
            subst hA
            subst hB
            rw [ih a2 b2 hsp]
            simp

theorem splitAtClose_no_close :
    ∀ (nm rest : List Char), '}' ∉ nm →
      splitAtClose (nm ++ '}' :: rest) = some (nm, rest) := by
  intro nm
  induction nm with
  | nil =>
      intro rest _
      simp [splitAtClose]
  | cons c nm2 ih =>
      intro rest h
      have hc : c ≠ '}' := fun hcc => h (by rw [hcc]; exact List.mem_cons_self _ _)
      show splitAtClose (c :: (nm2 ++ '}' :: rest)) = _
      unfold splitAtClose
      rw [if_neg hc, ih rest (fun hm => h (List.mem_cons_of_mem c hm))]

theorem fmt_loop_len (ps : List FmtParam) :
    ∀ (fuel : Nat) (l : List Char) (pos : Nat),
      (fmt_loop ps fuel l pos).length ≤ 1023 - pos := by
  intro fuel
  induction fuel with
  | zero => intro l pos; simp [fmt_loop]
  | succ f ih =>
      intro l pos
      cases l with
      | nil => simp [fmt_loop]
      | cons c rest =>
          simp only [fmt_loop]
          by_cases hp : 1023 ≤ pos
          · rw [if_pos hp]; simp
          · rw [if_neg hp]
            by_cases hc : c = '{'
            · rw [if_pos hc]
              cases hsp : splitAtClose rest with
              | none =>
                  have := ih rest (pos + 1)
                  simp only [List.length_cons]
                  omega
              | some p =>
                  obtain ⟨nm, rest2⟩ := p
                  cases hfind : (if nm.length < 64 then ps.find? (fun q => q.name == nm) else none) with
                  | some q =>
                      have h2 := ih rest2 (pos + (render_val q.val).length)
                      simp only [hfind, List.length_append, List.length_take]
                      omega
                  | none =>
                      simp only [hfind]
                      by_cases hfit : pos + ('{' :: (nm ++ ['}'])).length ≤ 1023
                      · rw [if_pos hfit]
                        have h2 := ih rest2 (pos + ('{' :: (nm ++ ['}'])).length)
                        simp only [List.length_append, List.length_cons] at *
                        omega
                      · rw [if_neg hfit]
                        simp only [List.length_take]
                        omega
            · rw [if_neg hc]
              have := ih rest (pos + 1)
              simp only [List.length_cons]
              omega

theorem fmt_loop_fuel (ps : List FmtParam) :
    ∀ (f1 : Nat) (l : List Char) (pos f2 : Nat),
      l.length ≤ f1 → l.length ≤ f2 →
      fmt_loop ps f1 l pos = fmt_loop ps f2 l pos := by
  intro f1
  induction f1 with
  | zero =>
      intro l pos f2 h1 _
      have hl : l = [] := List.eq_nil_of_length_eq_zero (by omega)
      subst hl
      cases f2 <;> rfl
  | succ f ih =>
      intro l pos f2 h1 h2
      cases l with
      | nil => cases f2 <;> rfl
      | cons c rest =>
          cases f2 with
          | zero => simp at h2
          | succ k =>
              rw [List.length_cons] at h1 h2
              simp only [fmt_loop]
              by_cases hp : 1023 ≤ pos
              · rw [if_pos hp, if_pos hp]
              · rw [if_neg hp, if_neg hp]
                by_cases hc : c = '{'
                · rw [if_pos hc, if_pos hc]
                  cases hsp : splitAtClose rest with
                  | none =>
                      rw [ih rest (pos + 1) k (by omega) (by omega)]
                  | some p =>
                      obtain ⟨nm, rest2⟩ := p
                      have hlen : rest2.length ≤ rest.length := by
                        rw [splitAtClose_eq rest nm rest2 hsp, List.length_append,
                            List.length_cons]
                        omega
                      cases hfind : (if nm.length < 64 then ps.find? (fun q => q.name == nm) else none) with
                      | some q =>
                          simp only [hfind]
                          rw [ih rest2 (pos + (render_val q.val).length) k
                                (by omega) (by omega)]
                      | none =>
                          simp only [hfind]
                          by_cases hfit : pos + ('{' :: (nm ++ ['}'])).length ≤ 1023
                          · rw [if_pos hfit, if_pos hfit,
                                ih rest2 (pos + ('{' :: (nm ++ ['}'])).length) k
                                  (by omega) (by omega)]
                          · rw [if_neg hfit, if_neg hfit]
                · rw [if_neg hc, if_neg hc]
                  rw [ih rest (pos + 1) k (by omega) (by omega)]

/-- Claim C10: `ecli_out_fmt` accepts at most 16 named parameters (only the
first 16 of the vararg list participate, later ones are ignored), a
placeholder whose name matches no accepted parameter is copied to the
output literally including its braces, and the substituted output is
truncated to the 1024-byte internal buffer. -/
theorem out_fmt_params (fmt : String) (ps : List FmtParam) (nm rest : List Char)
    (h1 : '}' ∉ nm)
    (h2 : ∀ q ∈ ps.take 16, ¬(q.name = nm))
    (h3 : nm.length + 2 ≤ 1023) :
    ecli_out_fmt ps fmt = ecli_out_fmt (ps.take 16) fmt ∧
    (ecli_out_fmt ps fmt).data.length ≤ 1023 ∧
    ecli_out_fmt ps ⟨'{' :: (nm ++ '}' :: rest)⟩ =
      ⟨('{' :: (nm ++ ['}'])) ++
        fmt_loop (ps.take 16) rest.length rest (nm.length + 2)⟩ := by
  refine ⟨?_, ?_, ?_⟩
  · simp [ecli_out_fmt, List.take_take]
  · show (fmt_loop (ps.take 16) fmt.data.length fmt.data 0).length ≤ 1023
    have := fmt_loop_len (ps.take 16) fmt.data.length fmt.data 0
    omega
  · show (⟨fmt_loop (ps.take 16) ('{' :: (nm ++ '}' :: rest)).length
            ('{' :: (nm ++ '}' :: rest)) 0⟩ : String) = _
    have hlen : ('{' :: (nm ++ '}' :: rest)).length
        = (nm.length + rest.length + 1) + 1 := by
      simp
      omega
    rw [hlen]
    simp only [fmt_loop]
    rw [if_neg (show ¬(1023 ≤ 0) by omega), if_pos (by trivial)]
    simp only [splitAtClose_no_close nm rest h1]
    have hfind : (if nm.length < 64
        then (ps.take 16).find? (fun q => q.name == nm) else none) = none := by
      split
      · exact List.find?_eq_none.mpr (fun q hq => by simpa using h2 q hq)
      · rfl
    simp only [hfind]
    rw [if_pos (by simp; omega : 0 + ('{' :: (nm ++ ['}'])).length ≤ 1023)]
    have hpos : 0 + ('{' :: (nm ++ ['}'])).length = nm.length + 2 := by simp
    rw [hpos, fmt_loop_fuel (ps.take 16) (nm.length + rest.length + 1) rest
          (nm.length + 2) rest.length (by omega) (by omega)]

/-- Witness for `out_fmt_params`: an unmatched placeholder is copied
literally. -/
theorem out_fmt_params_witness :
    ecli_out_fmt [⟨"user".data, FmtVal.vstr (some "alice")⟩]
        ⟨'{' :: ("missing".data ++ '}' :: [])⟩ =
      ⟨('{' :: ("missing".data ++ ['}'])) ++
        fmt_loop ([⟨"user".data, FmtVal.vstr (some "alice")⟩].take 16)
          ([] : List Char).length [] ("missing".data.length + 2)⟩ :=
  (out_fmt_params "set user {user}" [⟨"user".data, FmtVal.vstr (some "alice")⟩]
      "missing".data [] (by decide) (by decide) (by decide)).2.2
